import Mathlib

/-!
Shallow embedding of the WLAIO wordlist-generator core (src/WLAIO.py):
character-set catalog, brute-force enumeration, rule-based word mutation,
pairwise wordlist combination, combination-size estimation, order-preserving
deduplication, and flat line-format file round-trip.

Python strings are modelled as Lean `String`/`List Char`; Python dicts of
boolean rule flags as a `Rules` structure; fallible operations as `Except`.
-/

namespace WLAIO

/-- The catalog `WordlistGenerator.CHARACTER_SETS` (an insertion-ordered
Python dict), as an association list in the same order. The brace characters
in the special set are written with escapes. -/
def CHARACTER_SETS : List (String × String) :=
  [("uppercase", "ABCDEFGHIJKLMNOPQRSTUVWXYZ"),
   ("lowercase", "abcdefghijklmnopqrstuvwxyz"),
   ("numbers", "0123456789"),
   ("special_characters", "!@#$%^&*()_+-=\x7b\x7d:<>?,./")]

/-- Dict lookup `CHARACTER_SETS[cs]` guarded by `cs in CHARACTER_SETS`:
returns the alphabet of a named character set, or `none`. -/
def lookupSet (cs : String) : List (String × String) → Option String
  | [] => none
  | p :: ps => if p.1 = cs then some p.2 else lookupSet cs ps

/-- The combined alphabet, as a character list:
`''.join(CHARACTER_SETS[cs] for cs in character_sets if cs in CHARACTER_SETS)`.
Iteration is over the supplied `character_sets`, in supplied order. -/
def buildCharsetL (character_sets : List String) : List Char :=
  ((character_sets.filterMap (fun cs => lookupSet cs CHARACTER_SETS)).map
    String.toList).flatten

/-- The combined alphabet as a string. -/
def buildCharset (character_sets : List String) : String :=
  String.mk (buildCharsetL character_sets)

/-- `itertools.product(alphabet, repeat=n)`: all length-`n` tuples over
`alphabet` in cartesian-product order, leftmost position varying slowest. -/
def charProduct (alphabet : List Char) : Nat → List (List Char)
  | 0 => [[]]
  | Nat.succ n =>
    (alphabet.map (fun c => (charProduct alphabet n).map (fun t => c :: t))).flatten

/-- `WordlistGenerator.generate_brute_force`: builds the combined alphabet,
returns `[]` on an empty alphabet, raises (`Except.error`) when the total
space exceeds 1,000,000, otherwise materialises the full product as strings.
The progress callback has no effect on the produced list and is omitted. -/
def generate_brute_force (character_sets : List String) (length : Nat) :
    Except String (List String) :=
  let charset := buildCharsetL character_sets
  if charset = [] then Except.ok []
  else
    let total := charset.length ^ length
    if total > 1000000 then
      Except.error "Too many combinations. Consider using file output directly."
    else
      Except.ok ((charProduct charset length).map (fun cs => String.mk cs))

/-- The lines written by the worker loop of
`WordlistManagerGUI.save_brute_force_to_file`: one line `''.join(combo)+'\n'`
per product element, for every element, with no size limit. -/
def save_brute_force_lines (charset : List Char) (length : Nat) : List String :=
  (charProduct charset length).map (fun cs => String.mk cs ++ "\n")

/-- `LEET_MAP`, in the Python dict's insertion order. -/
def LEET_MAP : List (Char × Char) :=
  [('e', '3'), ('a', '4'), ('i', '1'), ('o', '0'), ('s', '5'), ('t', '7'), ('l', '1')]

/-- `DEFAULT_NUMBERS`. -/
def DEFAULT_NUMBERS : List String := ["1", "2", "3", "123", "2023", "2024"]

/-- `DEFAULT_SPECIAL_CHARS`. -/
def DEFAULT_SPECIAL_CHARS : List String := ["!", "@", "#", "$", "!@#"]

/-- Python `str.lower()` restricted to the ASCII range used by this program. -/
def pyLower (s : String) : String := String.mk (s.toList.map Char.toLower)

/-- Python `str.upper()` restricted to the ASCII range used by this program. -/
def pyUpper (s : String) : String := String.mk (s.toList.map Char.toUpper)

/-- Python `str.capitalize()`: first character upper-cased, rest lower-cased. -/
def pyCapitalize (s : String) : String :=
  match s.toList with
  | [] => ""
  | c :: cs => String.mk (Char.toUpper c :: cs.map Char.toLower)

/-- `WordlistGenerator.apply_leet_speak`: lower-case the word, then apply each
`LEET_MAP` pair in order as a full-string single-character replacement. -/
def apply_leet_speak (word : String) : String :=
  String.mk (LEET_MAP.foldl
    (fun cs p => cs.map (fun c => if c = p.1 then p.2 else c))
    (pyLower word).toList)

/-- The six boolean rule flags (`rules` dict / `combiner_vars`); an absent
key reads as `false`. Field order: leet_speak, case_variations,
append_numbers, prepend_numbers, append_special_characters,
prepend_special_characters. -/
structure Rules where
  leet_speak : Bool
  case_variations : Bool
  append_numbers : Bool
  prepend_numbers : Bool
  append_special_characters : Bool
  prepend_special_characters : Bool

/-- The all-false flag set. -/
def noRules : Rules := Rules.mk false false false false false false

/-- Order-preserving deduplication with a `seen` accumulator and a keep
predicate `p`: keeps the first occurrence of each element satisfying `p`,
exactly as the `seen`-set loop of `WordlistManagerGUI.remove_duplicates`;
with `p` constantly true it is `list(OrderedDict.fromkeys(l))`. -/
def filterDedupFrom (p : String → Bool) : List String → List String → List String
  | _, [] => []
  | seen, w :: ws =>
    if p w ∧ w ∉ seen then w :: filterDedupFrom p (w :: seen) ws
    else filterDedupFrom p seen ws

/-- `list(OrderedDict.fromkeys(l))`: first-seen-order deduplication. -/
def orderedDedup (l : List String) : List String :=
  filterDedupFrom (fun _ => true) [] l

/-- The number/special-character expansion applied to one variant: the
variant itself, then its enabled affix expansions, each table in order. The
same loop body appears verbatim in `apply_rules_to_word` and in
`generate_combined_wordlist`. -/
def affixBlock (var : String) (rules : Rules) : List String :=
  [var]
    ++ (if rules.append_numbers then
          DEFAULT_NUMBERS.map (fun num => var ++ num)
        else [])
    ++ (if rules.prepend_numbers then
          DEFAULT_NUMBERS.map (fun num => num ++ var)
        else [])
    ++ (if rules.append_special_characters then
          DEFAULT_SPECIAL_CHARS.map (fun c => var ++ c)
        else [])
    ++ (if rules.prepend_special_characters then
          DEFAULT_SPECIAL_CHARS.map (fun c => c ++ var)
        else [])

/-- The emission sequence of `apply_rules_to_word` before deduplication:
base variants (word, optional leet, optional case variants), then for each
variant, in order, its affix block. -/
def rawVariations (word : String) (rules : Rules) : List String :=
  (([word]
      ++ (if rules.leet_speak then [apply_leet_speak word] else [])
      ++ (if rules.case_variations then
            [pyUpper word, pyLower word, pyCapitalize word]
          else [])).map
    (fun var => affixBlock var rules)).flatten

/-- `WordlistGenerator.apply_rules_to_word`: the emission sequence,
deduplicated preserving first-occurrence order. -/
def apply_rules_to_word (word : String) (rules : Rules) : List String :=
  orderedDedup (rawVariations word rules)

/-- The generation loop of `WordlistManagerGUI.apply_rules`: each base word
is fed through `apply_rules_to_word` and the per-word results are
concatenated (`result_words.extend(...)`), with no further deduplication. -/
def apply_rules (words : List String) (rules : Rules) : List String :=
  (words.map (fun word => apply_rules_to_word word rules)).flatten

/-- The combiner's leet pass (`generate_combined_wordlist`): iterate over a
copy of the variation list, appending the leet form of each entry to the live
list when it is not already present. -/
def addLeet (vs : List String) : List String :=
  vs.foldl
    (fun acc v =>
      if apply_leet_speak v ∈ acc then acc else acc ++ [apply_leet_speak v])
    vs

/-- The combiner's `variations` list before the leet pass: the base string
followed by its case variants when enabled. -/
def baseVariations (base : String) (options : Rules) : List String :=
  [base]
    ++ (if options.case_variations then
          [pyUpper base, pyLower base, pyCapitalize base]
        else [])

/-- The combiner's `variations` list after the optional leet pass. -/
def leetVariations (base : String) (options : Rules) : List String :=
  if options.leet_speak then addLeet (baseVariations base options)
  else baseVariations base options

/-- The per-pair `final_variants` of `generate_combined_wordlist`: each
accumulated variant followed by its enabled affix expansions. -/
def combinerVariations (base : String) (options : Rules) : List String :=
  ((leetVariations base options).map (fun variant => affixBlock variant options)).flatten

/-- `WordlistManagerGUI.generate_combined_wordlist`: for every ordered pair
`(w1, w2)` of `itertools.product(wordlist1, wordlist2)` form `base = w1 + w2`,
expand it, and insert every variant into one `OrderedDict` shared by the whole
job; the result is its key list, i.e. the global first-seen-order
deduplication of the concatenated per-pair expansions. -/
def generate_combined_wordlist (wordlist1 wordlist2 : List String)
    (options : Rules) : List String :=
  orderedDedup
    ((wordlist1.map (fun w1 =>
      (wordlist2.map (fun w2 => combinerVariations (w1 ++ w2) options)).flatten)).flatten)

/-- `WordlistManagerGUI.update_combiner_estimate`: `len1 * len2` scaled by the
per-rule multiplier table (3 for case variations, 2 for leet speak,
`len(DEFAULT_NUMBERS)+1` for each number rule, `len(DEFAULT_SPECIAL_CHARS)+1`
for each special-character rule). -/
def update_combiner_estimate (wordlist1 wordlist2 : List String)
    (options : Rules) : Nat :=
  wordlist1.length * wordlist2.length
    * (if options.case_variations then 3 else 1)
    * (if options.leet_speak then 2 else 1)
    * (if options.append_numbers then DEFAULT_NUMBERS.length + 1 else 1)
    * (if options.prepend_numbers then DEFAULT_NUMBERS.length + 1 else 1)
    * (if options.append_special_characters then DEFAULT_SPECIAL_CHARS.length + 1 else 1)
    * (if options.prepend_special_characters then DEFAULT_SPECIAL_CHARS.length + 1 else 1)

/-- Python's whitespace characters for `str.strip()` (ASCII range, which
covers every character this program generates). -/
def isPySpace (c : Char) : Bool :=
  c = ' ' ∨ c = '\t' ∨ c = '\n' ∨ c = '\x0b' ∨ c = '\x0c' ∨ c = '\r'

/-- Python `str.strip()` on a character list: drop leading and trailing
whitespace. -/
def pyStripL (cs : List Char) : List Char :=
  ((cs.dropWhile isPySpace).reverse.dropWhile isPySpace).reverse

/-- Python `str.strip()`. -/
def pyStrip (s : String) : String := String.mk (pyStripL s.toList)

/-- Truthiness of `word.strip()`: the stripped word is non-empty. -/
def stripTruthy (w : String) : Bool := !(pyStripL w.toList).isEmpty

/-- `WordlistManagerGUI.remove_duplicates` on the text area's lines: keep a
line when its stripped form is non-empty and the raw line was not seen
before, preserving first-seen order. -/
def remove_duplicates (words : List String) : List String :=
  filterDedupFrom stripTruthy [] words

/-- Python `str.split('\n')` on a character list (file iteration yields the
same pieces, each with its terminating newline, which `strip()` removes). -/
def splitOnNl : List Char → List (List Char)
  | [] => [[]]
  | c :: cs =>
    match splitOnNl cs with
    | [] => []
    | l :: ls => if c = '\n' then [] :: l :: ls else (c :: l) :: ls

/-- `WordlistFileManager.save_wordlist`: the file content written, one line
`word + '\n'` per word (the periodic flush does not change the content). -/
def save_wordlist (wordlist : List String) : String :=
  String.mk ((wordlist.map (fun w => w.toList ++ ['\n'])).flatten)

/-- `WordlistFileManager.load_wordlist`: split the file content into lines,
and keep each line whose stripped form is non-empty, stripped, in order
(`[line.strip() for line in file if line.strip()]`). -/
def load_wordlist (content : String) : List String :=
  (splitOnNl content.toList).filterMap (fun l =>
    if pyStripL l = [] then none else some (String.mk (pyStripL l)))

/-- The word at index `i` of the length-`L` cartesian product over `a` in
standard order: most-significant digit first, the digit at position `j`
being `a[(i / |a| ^ (L - 1 - j)) % |a|]` (rightmost position varies
fastest). -/
def idxWord (a : List Char) : Nat → Nat → List Char
  | 0, _ => []
  | Nat.succ n, i => a.getD (i / a.length ^ n) 'a' :: idxWord a n (i % a.length ^ n)

/-- Modelled from the spec: the canonical-order combined alphabet — the
concatenation of the catalog's alphabets, in the catalog's fixed order
uppercase, lowercase, numbers, special, restricted to the selected names.
Stated only to compare with `buildCharsetL`, which follows supplied order. -/
def canonicalConcatL (character_sets : List String) : List Char :=
  (((CHARACTER_SETS.filter (fun p => p.1 ∈ character_sets)).map Prod.snd).map
    String.toList).flatten

/-- Modelled from the spec: the pairwise combiner's raw base strings — one
concatenation `a ++ b` per ordered pair of `A × B`, in row-major order.
Stated to compare with `generate_combined_wordlist` under no rule flags. -/
def pairwiseConcats (A B : List String) : List String :=
  (A.map (fun a => B.map (fun b => a ++ b))).flatten

/-- The multiplier table of `update_combiner_estimate` with the
case-variations factor amended from 3 to 4: the combiner keeps the original
base string alongside its three case variants. -/
def amendedMultiplier (options : Rules) : Nat :=
  (if options.case_variations then 4 else 1)
    * (if options.leet_speak then 2 else 1)
    * (if options.append_numbers then DEFAULT_NUMBERS.length + 1 else 1)
    * (if options.prepend_numbers then DEFAULT_NUMBERS.length + 1 else 1)
    * (if options.append_special_characters then DEFAULT_SPECIAL_CHARS.length + 1 else 1)
    * (if options.prepend_special_characters then DEFAULT_SPECIAL_CHARS.length + 1 else 1)

/-- The flag set with only case variations enabled. -/
def caseOnly : Rules := Rules.mk false true false false false false

/-- The flag set with only number appending enabled. -/
def appendNumbersOnly : Rules := Rules.mk false false true false false false

section DedupLemmas

theorem filterDedupFrom_sublist (p : String → Bool) :
    ∀ (l seen : List String), (filterDedupFrom p seen l).Sublist l := by
  intro l
  induction l with
  | nil => intro seen; simp [filterDedupFrom]
  | cons w ws ih =>
    intro seen
    unfold filterDedupFrom
    by_cases h : p w = true ∧ w ∉ seen
    · simp only [if_pos h]
      exact (ih (w :: seen)).cons₂ w
    · simp only [if_neg h]
      exact (ih seen).cons w

theorem mem_filterDedupFrom (p : String → Bool) :
    ∀ (l seen : List String) (x : String), x ∈ filterDedupFrom p seen l →
      p x = true ∧ x ∉ seen := by
  intro l
  induction l with
  | nil => intro seen x hx; simp [filterDedupFrom] at hx
  | cons w ws ih =>
    intro seen x hx
    unfold filterDedupFrom at hx
    by_cases h : p w = true ∧ w ∉ seen
    · simp only [if_pos h] at hx
      rcases List.mem_cons.mp hx with rfl | hx
      · exact h
      · have h2 := ih (w :: seen) x hx
        exact ⟨h2.1, fun hs => h2.2 (List.mem_cons_of_mem w hs)⟩
    · simp only [if_neg h] at hx
      exact ih seen x hx

theorem filterDedupFrom_nodup (p : String → Bool) :
    ∀ (l seen : List String), (filterDedupFrom p seen l).Nodup := by
  intro l
  induction l with
  | nil => intro seen; simp [filterDedupFrom]
  | cons w ws ih =>
    intro seen
    unfold filterDedupFrom
    by_cases h : p w = true ∧ w ∉ seen
    · simp only [if_pos h]
      refine List.nodup_cons.mpr ⟨?_, ih (w :: seen)⟩
      intro hw
      exact (mem_filterDedupFrom p ws (w :: seen) w hw).2 (List.mem_cons_self w seen)
    · simp only [if_neg h]
      exact ih seen

theorem filterDedupFrom_eq_self (p : String → Bool) :
    ∀ (l seen : List String), l.Nodup → (∀ x ∈ l, p x = true) →
      (∀ x ∈ l, x ∉ seen) → filterDedupFrom p seen l = l := by
  intro l
  induction l with
  | nil => intro seen _ _ _; rfl
  | cons w ws ih =>
    intro seen hnd hp hs
    unfold filterDedupFrom
    have hw : p w = true ∧ w ∉ seen :=
      ⟨hp w (List.mem_cons_self w ws), hs w (List.mem_cons_self w ws)⟩
    simp only [if_pos hw]
    have hwws : w ∉ ws := (List.nodup_cons.mp hnd).1
    refine congrArg (w :: ·) (ih (w :: seen) (List.nodup_cons.mp hnd).2
      (fun x hx => hp x (List.mem_cons_of_mem w hx)) ?_)
    intro x hx hmem
    rcases List.mem_cons.mp hmem with rfl | hmem
    · exact hwws hx
    · exact hs x (List.mem_cons_of_mem w hx) hmem

end DedupLemmas

theorem flatten_map_singleton {α β : Type} (f : α → β) :
    ∀ l : List α, (l.map (fun x => [f x])).flatten = l.map f := by
  intro l
  induction l with
  | nil => rfl
  | cons x xs ih => simp only [List.map_cons, List.flatten_cons, ih]; rfl

/-- C4: `apply_rules_to_word "hi"` with only `append_numbers` enabled returns
exactly `["hi","hi1","hi2","hi3","hi123","hi2023","hi2024"]`, in that order. -/
theorem C4_apply_rules_hi :
    apply_rules_to_word "hi" appendNumbersOnly =
      ["hi", "hi1", "hi2", "hi3", "hi123", "hi2023", "hi2024"] := by decide

/-- C5 counterexample: the claim says a rule-application job's output contains
no duplicate element, but `apply_rules` only deduplicates within each base
word: for base words `["a", "A"]` with case variations enabled the
concatenated output is `["a", "A", "A", "a"]`, which has duplicates. -/
theorem C5_counterexample : ¬ (apply_rules ["a", "A"] caseOnly).Nodup := by decide

/-- C5 (amended): deduplication is per base word, not across the job — each
base word's variant list from `apply_rules_to_word` contains no duplicates
and is a subsequence (first-occurrence selection) of its raw emission
sequence; `apply_rules` concatenates these per-word lists without any global
deduplication, so overlapping variants of different base words each remain. -/
theorem C5_per_word_dedup (w : String) (rules : Rules) :
    (apply_rules_to_word w rules).Nodup ∧
    (apply_rules_to_word w rules).Sublist (rawVariations w rules) :=
  ⟨filterDedupFrom_nodup (fun _ => true) (rawVariations w rules) [],
   filterDedupFrom_sublist (fun _ => true) (rawVariations w rules) []⟩

/-- C5 witness: the amended statement at a concrete input. -/
theorem C5_per_word_dedup_witness :
    (apply_rules_to_word "a" caseOnly).Nodup ∧
    (apply_rules_to_word "a" caseOnly).Sublist (rawVariations "a" caseOnly) :=
  C5_per_word_dedup "a" caseOnly

/-- C9: the order-preserving deduplication (`list(OrderedDict.fromkeys(l))`,
and the `remove_duplicates` seen-set pass) is idempotent: applying it twice
yields the same list, in content and order, as applying it once. -/
theorem C9_dedup_idempotent :
    (∀ l : List String, orderedDedup (orderedDedup l) = orderedDedup l) ∧
    (∀ l : List String, remove_duplicates (remove_duplicates l) = remove_duplicates l) := by
  constructor
  · intro l
    exact filterDedupFrom_eq_self (fun _ => true) (orderedDedup l) []
      (filterDedupFrom_nodup (fun _ => true) l [])
      (fun x _ => rfl) (fun x _ => List.not_mem_nil x)
  · intro l
    exact filterDedupFrom_eq_self stripTruthy (remove_duplicates l) []
      (filterDedupFrom_nodup stripTruthy l [])
      (fun x hx => (mem_filterDedupFrom stripTruthy l [] x hx).1)
      (fun x _ => List.not_mem_nil x)

/-- C2 counterexample: the claim says a call of `generate_brute_force` with an
empty combined alphabet is rejected with a validation error; in fact the call
returns the empty list without raising (`if not charset: return []`). -/
theorem C2_counterexample : generate_brute_force ["bogus"] 3 = Except.ok [] := rfl

/-- C2 (amended): with an empty combined alphabet (no valid character-set
name selected), `generate_brute_force` returns the empty list without error —
no word is produced, but no validation error is raised either (the GUI caller
separately rejects an empty checkbox selection before invoking generation). -/
theorem C2_empty_charset (sets : List String) (L : Nat)
    (h : buildCharsetL sets = []) : generate_brute_force sets L = Except.ok [] := by
  unfold generate_brute_force
  simp [h]

/-- C2 witness: the amended statement at a concrete input. -/
theorem C2_empty_charset_witness :
    buildCharsetL ["bogus"] = [] ∧ generate_brute_force ["bogus"] 5 = Except.ok [] :=
  ⟨rfl, C2_empty_charset ["bogus"] 5 rfl⟩

/-- C8: the pairwise combiner on `A = ["a","b"]`, `B = ["x","y"]` with no rule
flags enabled produces exactly `["ax","ay","bx","by"]`; in general, with no
flags it produces one concatenation `a ++ b` per ordered pair of `A × B`,
deduplicated globally in first-seen order. -/
theorem C8_pairwise_no_rules :
    generate_combined_wordlist ["a", "b"] ["x", "y"] noRules = ["ax", "ay", "bx", "by"] ∧
    ∀ A B : List String,
      generate_combined_wordlist A B noRules = orderedDedup (pairwiseConcats A B) := by
  refine ⟨by decide, ?_⟩
  intro A B
  unfold generate_combined_wordlist pairwiseConcats
  have hcv : ∀ x : String, combinerVariations x noRules = [x] := fun x => rfl
  simp only [hcv, flatten_map_singleton]

section CharsetOrder

theorem lookupSet_cons (s : String) (q : String × String) (ps : List (String × String)) :
    lookupSet s (q :: ps) = if q.1 = s then some q.2 else lookupSet s ps := rfl

theorem lookupSet_mem : ∀ (cat : List (String × String)) (s v : String),
    lookupSet s cat = some v → (s, v) ∈ cat := by
  intro cat
  induction cat with
  | nil => intro s v h; simp [lookupSet] at h
  | cons q ps ih =>
    intro s v h
    unfold lookupSet at h
    by_cases hq : q.1 = s
    · rw [if_pos hq] at h
      have hv : q.2 = v := Option.some.inj h
      have heq : (s, v) = q := by rw [← hq, ← hv]
      rw [heq]
      exact List.mem_cons_self q ps
    · rw [if_neg hq] at h
      exact List.mem_cons_of_mem q (ih s v h)

theorem filterMap_lookup_canonical :
    ∀ (cat : List (String × String)) (sets : List String),
      (cat.map Prod.fst).Nodup → sets.Sublist (cat.map Prod.fst) →
      sets.filterMap (fun s => lookupSet s cat) =
        (cat.filter (fun p => p.1 ∈ sets)).map Prod.snd := by
  intro cat
  induction cat with
  | nil =>
    intro sets _ hsub
    have hs : sets = [] := List.sublist_nil.mp (by simpa using hsub)
    subst hs
    rfl
  | cons q ps ih =>
    intro sets hnd hsub
    rw [List.map_cons] at hsub hnd
    have hndq : q.1 ∉ ps.map Prod.fst := (List.nodup_cons.mp hnd).1
    have hndp : (ps.map Prod.fst).Nodup := (List.nodup_cons.mp hnd).2
    cases hsub with
    | cons _ h =>
      have hq : q.1 ∉ sets := fun hmem => hndq (h.subset hmem)
      have hl : sets.filterMap (fun s => lookupSet s (q :: ps)) =
          sets.filterMap (fun s => lookupSet s ps) := by
        apply List.filterMap_congr
        intro x hx
        rw [lookupSet_cons, if_neg (fun he => hq (by rw [he]; exact hx))]
      rw [hl, ih sets hndp h, List.filter_cons]
      simp [hq]
    | cons₂ _ h =>
      rename_i l'
      have hql : q.1 ∉ l' := fun hmem => hndq (h.subset hmem)
      have hl : l'.filterMap (fun s => lookupSet s (q :: ps)) =
          l'.filterMap (fun s => lookupSet s ps) := by
        apply List.filterMap_congr
        intro x hx
        rw [lookupSet_cons, if_neg (fun he => hql (by rw [he]; exact hx))]
      have hfc : ps.filter (fun p => p.1 ∈ q.1 :: l') = ps.filter (fun p => p.1 ∈ l') := by
        apply List.filter_congr
        intro p hp
        have hne : p.1 ≠ q.1 := by
          intro he
          exact hndq (he ▸ List.mem_map_of_mem Prod.fst hp)
        simp [List.mem_cons, hne]
      rw [List.filterMap_cons, lookupSet_cons, if_pos rfl, List.filter_cons,
        if_pos (by simp : decide (q.1 ∈ q.1 :: l') = true), List.map_cons,
        hl, ih l' hndp h, hfc]

end CharsetOrder

/-- C7 counterexample: the claim says the combined alphabet is independent of
the order in which the names are supplied, always following the canonical
catalog order; in fact `generate_brute_force` joins the alphabets in supplied
order, so supplying `["lowercase", "uppercase"]` yields the lowercase letters
first, not the canonical concatenation. -/
theorem C7_counterexample :
    buildCharsetL ["lowercase", "uppercase"] ≠
      canonicalConcatL ["lowercase", "uppercase"] := by decide

/-- C7 (amended): the combined alphabet is the concatenation of the selected
sets' alphabets in the order the names are supplied; when the selection is
supplied as a subsequence of the catalog's canonical enumeration (uppercase,
lowercase, numbers, special) — as the GUI's checkbox iteration always does —
it equals the canonical-order concatenation. -/
theorem C7_canonical_alphabet (sets : List String)
    (h : sets.Sublist (CHARACTER_SETS.map Prod.fst)) :
    buildCharsetL sets = canonicalConcatL sets := by
  unfold buildCharsetL canonicalConcatL
  rw [filterMap_lookup_canonical CHARACTER_SETS sets (by decide) h]

/-- C7 witness: the amended statement at a concrete selection. -/
theorem C7_canonical_alphabet_witness :
    buildCharsetL ["uppercase", "numbers"] = canonicalConcatL ["uppercase", "numbers"] :=
  C7_canonical_alphabet ["uppercase", "numbers"] (by decide)

section RoundTrip

theorem string_toList_eq_nil : ∀ {w : String}, w.toList = [] → w = "" := by
  intro w h
  cases w with
  | mk data =>
    cases data with
    | nil => rfl
    | cons c cs => simp [String.toList] at h

theorem string_mk_toList : ∀ w : String, String.mk w.toList = w := by
  intro w
  cases w
  rfl

theorem splitOnNl_cons (c : Char) (cs : List Char) :
    splitOnNl (c :: cs) =
      match splitOnNl cs with
      | [] => []
      | l :: ls => if c = '\n' then [] :: l :: ls else (c :: l) :: ls := rfl

theorem splitOnNl_ne_nil : ∀ cs : List Char, splitOnNl cs ≠ [] := by
  intro cs
  induction cs with
  | nil => simp [splitOnNl]
  | cons c cs ih =>
    rw [splitOnNl_cons]
    cases h : splitOnNl cs with
    | nil => exact absurd h ih
    | cons l ls => by_cases hc : c = '\n' <;> simp [hc]

theorem splitOnNl_newline (rest : List Char) :
    splitOnNl ('\n' :: rest) = [] :: splitOnNl rest := by
  rw [splitOnNl_cons]
  cases h : splitOnNl rest with
  | nil => exact absurd h (splitOnNl_ne_nil rest)
  | cons l ls => simp

theorem splitOnNl_append : ∀ (w rest : List Char), '\n' ∉ w →
    splitOnNl (w ++ '\n' :: rest) = w :: splitOnNl rest := by
  intro w
  induction w with
  | nil => intro rest _; exact splitOnNl_newline rest
  | cons c cs ih =>
    intro rest hw
    have hc : c ≠ '\n' := fun h => hw (h ▸ List.mem_cons_self c cs)
    have hcs : '\n' ∉ cs := fun h => hw (List.mem_cons_of_mem c h)
    show splitOnNl (c :: (cs ++ '\n' :: rest)) = (c :: cs) :: splitOnNl rest
    rw [splitOnNl_cons, ih rest hcs]
    simp [hc]

theorem load_save_aux : ∀ ws : List String,
    (∀ w ∈ ws, w ≠ "" ∧ '\n' ∉ w.toList ∧ pyStripL w.toList = w.toList) →
    (splitOnNl ((ws.map (fun w => w.toList ++ ['\n'])).flatten)).filterMap
      (fun l =>
        if pyStripL l = [] then none else some (String.mk (pyStripL l))) = ws := by
  intro ws
  induction ws with
  | nil => intro _; rfl
  | cons w rest ih =>
    intro h
    obtain ⟨hne, hnl, hstrip⟩ := h w (List.mem_cons_self w rest)
    have hrest := fun x hx => h x (List.mem_cons_of_mem w hx)
    have hnil : ¬ (w.toList = []) := fun hn => hne (string_toList_eq_nil hn)
    rw [List.map_cons, List.flatten_cons, List.append_assoc, List.singleton_append,
      splitOnNl_append w.toList _ hnl, List.filterMap_cons]
    simp only [hstrip, if_neg hnil, string_mk_toList]
    exact congrArg (w :: ·) (ih hrest)

end RoundTrip

/-- C10: flat line-format round-trip — for every word list whose words are
non-empty, contain no newline, and carry no leading or trailing whitespace,
`load_wordlist` after `save_wordlist` returns exactly the original list,
duplicates and order included. -/
theorem C10_roundtrip (ws : List String)
    (h : ∀ w ∈ ws, w ≠ "" ∧ '\n' ∉ w.toList ∧ pyStripL w.toList = w.toList) :
    load_wordlist (save_wordlist ws) = ws := by
  unfold load_wordlist save_wordlist
  exact load_save_aux ws h

/-- C10 witness: the round-trip at a concrete list with a repeated word. -/
theorem C10_roundtrip_witness :
    load_wordlist (save_wordlist ["abc", "d", "abc"]) = ["abc", "d", "abc"] :=
  C10_roundtrip ["abc", "d", "abc"] (by decide)

section EstimateBound

theorem flatten_map_length_le {α : Type} (f : α → List String) (k : Nat) :
    ∀ l : List α, (∀ x ∈ l, (f x).length ≤ k) →
      ((l.map f).flatten).length ≤ l.length * k := by
  intro l
  induction l with
  | nil => intro _; simp
  | cons x xs ih =>
    intro h
    rw [List.map_cons, List.flatten_cons, List.length_append, List.length_cons,
      Nat.succ_mul, Nat.add_comm (xs.length * k) k]
    exact Nat.add_le_add (h x (List.mem_cons_self x xs))
      (ih (fun y hy => h y (List.mem_cons_of_mem x hy)))

theorem leetFold_length : ∀ (l acc : List String),
    (List.foldl (fun acc v =>
      if apply_leet_speak v ∈ acc then acc else acc ++ [apply_leet_speak v]) acc l).length
      ≤ acc.length + l.length := by
  intro l
  induction l with
  | nil => intro acc; simp
  | cons v vs ih =>
    intro acc
    rw [List.foldl_cons]
    by_cases h : apply_leet_speak v ∈ acc
    · rw [if_pos h]
      refine le_trans (ih acc) ?_
      rw [List.length_cons]
      omega
    · rw [if_neg h]
      refine le_trans (ih (acc ++ [apply_leet_speak v])) ?_
      simp only [List.length_append, List.length_cons, List.length_nil]
      omega

theorem addLeet_length (vs : List String) : (addLeet vs).length ≤ 2 * vs.length := by
  refine le_trans (leetFold_length vs vs) ?_
  omega

theorem leetVariations_length_le (base : String) (o : Rules) :
    (leetVariations base o).length ≤
      (if o.case_variations then 4 else 1) * (if o.leet_speak then 2 else 1) := by
  have hb : (baseVariations base o).length = if o.case_variations then 4 else 1 := by
    unfold baseVariations
    cases o.case_variations <;> simp
  unfold leetVariations
  cases hl : o.leet_speak
  · rw [if_neg (by simp [hl]), hb]
    cases o.case_variations <;> simp
  · rw [if_pos (by simp [hl])]
    refine le_trans (addLeet_length _) ?_
    rw [hb]
    cases o.case_variations <;> simp

theorem affixBlock_length_le (variant : String) (o : Rules) :
    (affixBlock variant o).length ≤
      (if o.append_numbers then DEFAULT_NUMBERS.length + 1 else 1)
        * (if o.prepend_numbers then DEFAULT_NUMBERS.length + 1 else 1)
        * (if o.append_special_characters then DEFAULT_SPECIAL_CHARS.length + 1 else 1)
        * (if o.prepend_special_characters then DEFAULT_SPECIAL_CHARS.length + 1 else 1) := by
  unfold affixBlock
  rcases o with ⟨l, c, an, pn, asc, psc⟩
  cases an <;> cases pn <;> cases asc <;> cases psc <;>
    simp [DEFAULT_NUMBERS, DEFAULT_SPECIAL_CHARS]

theorem combinerVariations_length_le (base : String) (o : Rules) :
    (combinerVariations base o).length ≤ amendedMultiplier o := by
  unfold combinerVariations
  refine le_trans
    (flatten_map_length_le (fun variant => affixBlock variant o)
      ((if o.append_numbers then DEFAULT_NUMBERS.length + 1 else 1)
        * (if o.prepend_numbers then DEFAULT_NUMBERS.length + 1 else 1)
        * (if o.append_special_characters then DEFAULT_SPECIAL_CHARS.length + 1 else 1)
        * (if o.prepend_special_characters then DEFAULT_SPECIAL_CHARS.length + 1 else 1))
      (leetVariations base o)
      (fun v _ => affixBlock_length_le v o)) ?_
  refine le_trans (mul_le_mul_right' (leetVariations_length_le base o) _) ?_
  unfold amendedMultiplier
  exact le_of_eq (by ring)

end EstimateBound

/-- C6 counterexample: the claim says the estimate with case-variations
multiplier 3 bounds the combiner's actual output; but the combiner keeps the
original base alongside its three case variants, so wordlists `["aB"]` and
`["c"]` with only case variations enabled produce 4 distinct words while the
estimate is 3. -/
theorem C6_counterexample :
    ¬ ((generate_combined_wordlist ["aB"] ["c"] caseOnly).length ≤
        update_combiner_estimate ["aB"] ["c"] caseOnly) := by decide

/-- C6 (amended): with the case-variations multiplier amended from 3 to 4
(original plus upper, lower, capitalized), the estimate
`|A| * |B| * Π(multipliers)` is an upper bound on the number of words the
pairwise combiner produces after global deduplication. -/
theorem C6_estimate_upper_bound (A B : List String) (options : Rules) :
    (generate_combined_wordlist A B options).length ≤
      A.length * B.length * amendedMultiplier options := by
  unfold generate_combined_wordlist
  refine le_trans (List.Sublist.length_le (filterDedupFrom_sublist _ _ [])) ?_
  refine le_trans
    (flatten_map_length_le _ (B.length * amendedMultiplier options) A ?_) ?_
  · intro a _
    exact flatten_map_length_le _ (amendedMultiplier options) B
      (fun b _ => combinerVariations_length_le (a ++ b) options)
  · exact le_of_eq (Nat.mul_assoc A.length B.length (amendedMultiplier options)).symm

section BruteForce

theorem sum_map_const {α : Type} (k : Nat) :
    ∀ l : List α, (l.map (fun _ => k)).sum = l.length * k := by
  intro l
  induction l with
  | nil => simp
  | cons x xs ih =>
    rw [List.map_cons, List.sum_cons, ih, List.length_cons, Nat.succ_mul,
      Nat.add_comm (xs.length * k) k]

theorem charProduct_succ (a : List Char) (n : Nat) :
    charProduct a (n + 1) =
      (a.map (fun c => (charProduct a n).map (fun t => c :: t))).flatten := rfl

theorem idxWord_succ (a : List Char) (n i : Nat) :
    idxWord a (n + 1) i =
      a.getD (i / a.length ^ n) 'a' :: idxWord a n (i % a.length ^ n) := rfl

theorem charProduct_length (a : List Char) :
    ∀ L, (charProduct a L).length = a.length ^ L := by
  intro L
  induction L with
  | zero => rfl
  | succ n ih =>
    rw [charProduct_succ, List.length_flatten, List.map_map]
    have hc : (List.length ∘ fun c : Char => (charProduct a n).map (fun t => c :: t)) =
        fun _ : Char => a.length ^ n := by
      funext c
      simp [ih]
    rw [hc, sum_map_const, pow_succ, Nat.mul_comm]

theorem charProduct_mem_length (a : List Char) :
    ∀ L, ∀ w ∈ charProduct a L, w.length = L := by
  intro L
  induction L with
  | zero =>
    intro w hw
    have hw0 : w = [] := by simpa [charProduct] using hw
    rw [hw0]
    rfl
  | succ n ih =>
    intro w hw
    rw [charProduct_succ, List.mem_flatten] at hw
    obtain ⟨b, hb, hwb⟩ := hw
    rw [List.mem_map] at hb
    obtain ⟨c, _, rfl⟩ := hb
    rw [List.mem_map] at hwb
    obtain ⟨t, ht, rfl⟩ := hwb
    rw [List.length_cons, ih t ht]

theorem range_mul_flatten {β : Type} (n : Nat) (f : Nat → β) :
    ∀ m, (List.range (m * n)).map f =
      ((List.range m).map (fun q => (List.range n).map (fun r => f (q * n + r)))).flatten := by
  intro m
  induction m with
  | zero => simp
  | succ m ih =>
    rw [Nat.succ_mul, List.range_add, List.map_append, ih, List.range_succ,
      List.map_append, List.flatten_append, List.map_map]
    simp [Function.comp]

theorem map_getD_range {α : Type} (a : List α) (d : α) :
    (List.range a.length).map (fun q => a.getD q d) = a := by
  apply List.ext_getElem
  · simp
  · intro i h1 h2
    rw [List.getElem_map, List.getElem_range, List.getD_eq_getElem a d h2]

theorem charProduct_eq_range (a : List Char) (hapos : 0 < a.length) :
    ∀ L, charProduct a L = (List.range (a.length ^ L)).map (idxWord a L) := by
  intro L
  induction L with
  | zero =>
    rw [pow_zero]
    rfl
  | succ n ih =>
    have hpow : 0 < a.length ^ n := pow_pos hapos n
    rw [charProduct_succ, pow_succ', range_mul_flatten (a.length ^ n) (idxWord a (n + 1)),
      ih]
    congr 1
    apply List.ext_getElem
    · simp
    · intro q h1 h2
      have hq : q < a.length := by simpa using h1
      rw [List.getElem_map, List.getElem_map, List.getElem_range, List.map_map]
      apply List.map_congr_left
      intro r hr
      rw [List.mem_range] at hr
      have hdiv : (q * a.length ^ n + r) / a.length ^ n = q := by
        rw [Nat.mul_comm q (a.length ^ n), Nat.mul_add_div hpow, Nat.div_eq_of_lt hr,
          Nat.add_zero]
      have hmod : (q * a.length ^ n + r) % a.length ^ n = r := by
        rw [Nat.mul_comm q (a.length ^ n), Nat.mul_add_mod, Nat.mod_eq_of_lt hr]
      show a[q] :: idxWord a n r = idxWord a (n + 1) (q * a.length ^ n + r)
      rw [idxWord_succ, hdiv, hmod, List.getD_eq_getElem a 'a' hq]

theorem idxWord_inj (a : List Char) (hand : a.Nodup) :
    ∀ L i j, i < a.length ^ L → j < a.length ^ L → idxWord a L i = idxWord a L j → i = j := by
  intro L
  induction L with
  | zero =>
    intro i j hi hj _
    rw [pow_zero] at hi hj
    omega
  | succ n ih =>
    intro i j hi hj heq
    have hapos : 0 < a.length := by
      rcases Nat.eq_zero_or_pos a.length with h | h
      · rw [h] at hi
        simp at hi
      · exact h
    have hpow : 0 < a.length ^ n := pow_pos hapos n
    rw [idxWord_succ, idxWord_succ] at heq
    injection heq with h1 h2
    have hdi : i / a.length ^ n < a.length := by
      rw [Nat.div_lt_iff_lt_mul hpow]
      rw [pow_succ'] at hi
      exact hi
    have hdj : j / a.length ^ n < a.length := by
      rw [Nat.div_lt_iff_lt_mul hpow]
      rw [pow_succ'] at hj
      exact hj
    rw [List.getD_eq_getElem a 'a' hdi, List.getD_eq_getElem a 'a' hdj] at h1
    have hq : i / a.length ^ n = j / a.length ^ n :=
      (List.Nodup.getElem_inj_iff hand).mp h1
    have hr : i % a.length ^ n = j % a.length ^ n :=
      ih _ _ (Nat.mod_lt i hpow) (Nat.mod_lt j hpow) h2
    rw [← Nat.div_add_mod i (a.length ^ n), ← Nat.div_add_mod j (a.length ^ n), hq, hr]

theorem charProduct_nodup (a : List Char) (hand : a.Nodup) (hapos : 0 < a.length)
    (L : Nat) : (charProduct a L).Nodup := by
  rw [charProduct_eq_range a hapos L]
  refine List.Nodup.map_on ?_ (List.nodup_range _)
  intro i hi j hj heq
  rw [List.mem_range] at hi hj
  exact idxWord_inj a hand L i j hi hj heq

theorem catalog_alphabets_nodup : ∀ p ∈ CHARACTER_SETS, p.2.toList.Nodup := by decide

theorem catalog_alphabets_ne_nil : ∀ p ∈ CHARACTER_SETS, p.2.toList ≠ [] := by decide

theorem catalog_alphabets_disjoint :
    ∀ p ∈ CHARACTER_SETS, ∀ q ∈ CHARACTER_SETS, p.1 ≠ q.1 →
      ∀ c ∈ p.2.toList, c ∉ q.2.toList := by decide

theorem lookupSet_of_mem_keys : ∀ (cat : List (String × String)) (s : String),
    s ∈ cat.map Prod.fst → ∃ v, lookupSet s cat = some v := by
  intro cat
  induction cat with
  | nil => intro s h; simp at h
  | cons q ps ih =>
    intro s h
    by_cases hq : q.1 = s
    · exact ⟨q.2, by rw [lookupSet_cons, if_pos hq]⟩
    · rw [List.map_cons, List.mem_cons] at h
      rcases h with h | h
      · exact absurd h.symm hq
      · obtain ⟨v, hv⟩ := ih s h
        exact ⟨v, by rw [lookupSet_cons, if_neg hq]; exact hv⟩

theorem buildCharsetL_cons (s : String) (rest : List String) :
    buildCharsetL (s :: rest) =
      (match lookupSet s CHARACTER_SETS with
       | none => []
       | some v => v.toList) ++ buildCharsetL rest := by
  unfold buildCharsetL
  rw [List.filterMap_cons]
  cases lookupSet s CHARACTER_SETS <;> simp

theorem buildCharsetL_ne_nil (sets : List String) (hne : sets ≠ [])
    (hvalid : ∀ s ∈ sets, s ∈ CHARACTER_SETS.map Prod.fst) :
    buildCharsetL sets ≠ [] := by
  cases sets with
  | nil => exact absurd rfl hne
  | cons s rest =>
    obtain ⟨v, hv⟩ :=
      lookupSet_of_mem_keys CHARACTER_SETS s (hvalid s (List.mem_cons_self s rest))
    have hvne : v.toList ≠ [] :=
      catalog_alphabets_ne_nil (s, v) (lookupSet_mem CHARACTER_SETS s v hv)
    rw [buildCharsetL_cons, hv]
    intro h
    exact hvne (List.append_eq_nil.mp h).1

theorem mem_buildCharsetL (c : Char) : ∀ sets : List String,
    c ∈ buildCharsetL sets ↔
      ∃ s ∈ sets, ∃ v, lookupSet s CHARACTER_SETS = some v ∧ c ∈ v.toList := by
  intro sets
  induction sets with
  | nil => simp [buildCharsetL]
  | cons s rest ih =>
    rw [buildCharsetL_cons, List.mem_append, ih]
    cases hv : lookupSet s CHARACTER_SETS with
    | none =>
      simp only [List.not_mem_nil, false_or, List.mem_cons]
      constructor
      · rintro ⟨t, ht, w, hw, hcw⟩
        exact ⟨t, Or.inr ht, w, hw, hcw⟩
      · rintro ⟨t, ht | ht, w, hw, hcw⟩
        · rw [ht] at hw
          rw [hv] at hw
          exact absurd hw (by simp)
        · exact ⟨t, ht, w, hw, hcw⟩
    | some v =>
      simp only [List.mem_cons]
      constructor
      · rintro (hcv | ⟨t, ht, w, hw, hcw⟩)
        · exact ⟨s, Or.inl rfl, v, hv, hcv⟩
        · exact ⟨t, Or.inr ht, w, hw, hcw⟩
      · rintro ⟨t, ht | ht, w, hw, hcw⟩
        · rw [ht] at hw
          rw [hv] at hw
          have hvw : v = w := Option.some.inj hw
          exact Or.inl (hvw ▸ hcw)
        · exact Or.inr ⟨t, ht, w, hw, hcw⟩

theorem buildCharsetL_nodup : ∀ sets : List String, sets.Nodup →
    (∀ s ∈ sets, s ∈ CHARACTER_SETS.map Prod.fst) → (buildCharsetL sets).Nodup := by
  intro sets
  induction sets with
  | nil => intro _ _; simp [buildCharsetL]
  | cons s rest ih =>
    intro hnd hvalid
    obtain ⟨v, hv⟩ :=
      lookupSet_of_mem_keys CHARACTER_SETS s (hvalid s (List.mem_cons_self s rest))
    have hmem : (s, v) ∈ CHARACTER_SETS := lookupSet_mem CHARACTER_SETS s v hv
    rw [buildCharsetL_cons, hv, List.nodup_append]
    refine ⟨catalog_alphabets_nodup (s, v) hmem,
      ih (List.nodup_cons.mp hnd).2
        (fun t ht => hvalid t (List.mem_cons_of_mem s ht)), ?_⟩
    intro c hc hc2
    rw [mem_buildCharsetL] at hc2
    obtain ⟨t, ht, w, hw, hcw⟩ := hc2
    have htm : (t, w) ∈ CHARACTER_SETS := lookupSet_mem CHARACTER_SETS t w hw
    have hst : s ≠ t := fun h => (List.nodup_cons.mp hnd).1 (h ▸ ht)
    exact catalog_alphabets_disjoint (s, v) hmem (t, w) htm hst c hc hcw

theorem generate_brute_force_ok (sets : List String) (L : Nat)
    (hne : buildCharsetL sets ≠ [])
    (hcap : (buildCharsetL sets).length ^ L ≤ 1000000) :
    generate_brute_force sets L =
      Except.ok ((charProduct (buildCharsetL sets) L).map (fun cs => String.mk cs)) := by
  simp only [generate_brute_force]
  rw [if_neg hne, if_neg (by omega)]

end BruteForce

/-- C1: for every non-empty duplicate-free selection of valid character-set
names and every length `L ≥ 1` whose total space is within the 1,000,000
limit, `generate_brute_force` succeeds with exactly `|alphabet| ^ L` distinct
strings, each of length `L`, in standard cartesian-product order with the
rightmost position varying fastest: the word at index `i` spells out the
base-`|alphabet|` digits of `i`, most significant first. -/
theorem C1_brute_force_enumeration (sets : List String) (L : Nat)
    (hne : sets ≠ []) (hnd : sets.Nodup)
    (hvalid : ∀ s ∈ sets, s ∈ CHARACTER_SETS.map Prod.fst)
    (hL : 1 ≤ L)
    (hcap : (buildCharsetL sets).length ^ L ≤ 1000000) :
    ∃ ws : List String,
      generate_brute_force sets L = Except.ok ws ∧
      ws.length = (buildCharsetL sets).length ^ L ∧
      ws.Nodup ∧
      (∀ w ∈ ws, w.length = L) ∧
      ws = (List.range ((buildCharsetL sets).length ^ L)).map
        (fun i => String.mk (idxWord (buildCharsetL sets) L i)) := by
  have hanil : buildCharsetL sets ≠ [] := buildCharsetL_ne_nil sets hne hvalid
  have hapos : 0 < (buildCharsetL sets).length := List.length_pos.mpr hanil
  have hand : (buildCharsetL sets).Nodup := buildCharsetL_nodup sets hnd hvalid
  refine ⟨(charProduct (buildCharsetL sets) L).map (fun cs => String.mk cs),
    generate_brute_force_ok sets L hanil hcap, ?_, ?_, ?_, ?_⟩
  · rw [List.length_map, charProduct_length]
  · refine List.Nodup.map (fun x y hxy => congrArg String.data hxy)
      (charProduct_nodup (buildCharsetL sets) hand hapos L)
  · intro w hw
    rw [List.mem_map] at hw
    obtain ⟨cs, hcs, rfl⟩ := hw
    have hlen : (String.mk cs).length = cs.length := rfl
    rw [hlen, charProduct_mem_length (buildCharsetL sets) L cs hcs]
  · rw [charProduct_eq_range (buildCharsetL sets) hapos L, List.map_map]
    rfl

/-- C1 witness: the enumeration statement at the concrete selection
uppercase + lowercase with length 1. -/
theorem C1_brute_force_enumeration_witness :
    ∃ ws : List String,
      generate_brute_force ["uppercase", "lowercase"] 1 = Except.ok ws ∧
      ws.length = (buildCharsetL ["uppercase", "lowercase"]).length ^ 1 ∧
      ws.Nodup ∧
      (∀ w ∈ ws, w.length = 1) ∧
      ws = (List.range ((buildCharsetL ["uppercase", "lowercase"]).length ^ 1)).map
        (fun i => String.mk (idxWord (buildCharsetL ["uppercase", "lowercase"]) 1 i)) :=
  C1_brute_force_enumeration ["uppercase", "lowercase"] 1 (by decide) (by decide)
    (by decide) (by decide) (by decide)

/-- C3: when the total space exceeds 1,000,000 the in-memory path of
`generate_brute_force` fails fast with an error before producing any output,
while the file-destined writer loop of `save_brute_force_to_file` imposes no
limit and writes one line per product element — all `|alphabet| ^ L` of
them. -/
theorem C3_capacity_limit (sets : List String) (L : Nat)
    (hne : buildCharsetL sets ≠ [])
    (hcap : (buildCharsetL sets).length ^ L > 1000000) :
    generate_brute_force sets L =
      Except.error "Too many combinations. Consider using file output directly." ∧
    (save_brute_force_lines (buildCharsetL sets) L).length =
      (buildCharsetL sets).length ^ L := by
  constructor
  · simp only [generate_brute_force]
    rw [if_neg hne, if_pos hcap]
  · unfold save_brute_force_lines
    rw [List.length_map, charProduct_length]

/-- C3 witness: the capacity statement at digits with length 7
(10^7 > 1,000,000). -/
theorem C3_capacity_limit_witness :
    generate_brute_force ["numbers"] 7 =
      Except.error "Too many combinations. Consider using file output directly." ∧
    (save_brute_force_lines (buildCharsetL ["numbers"]) 7).length =
      (buildCharsetL ["numbers"]).length ^ 7 :=
  C3_capacity_limit ["numbers"] 7 (by decide) (by decide)

end WLAIO
